import Mathlib

/-!
Verification development for the TruthBounty event-indexing and scoring
services.  Each service method used by the claims is shallowly embedded as a
Lean function over explicit state (database tables become lists of rows,
numbers become `Nat`/`Int`/`ℚ`), translated directly from the TypeScript
sources under `src/`.
-/

namespace TruthBounty

/-! ### Claim resolution (`src/claims/claim-resolution.service.ts`)

`computeConfidenceScore` works on JavaScript numbers; we embed the arithmetic
over `ℚ`.  `Number(x.toFixed(4))` is rounding to four decimal places, embedded
as `toFixed4` via the integer `round` (half away from zero does not differ from
half up on the non-negative values produced here). -/

/-- Embedding of `Number(x.toFixed(4))` for the non-negative results of
`computeConfidenceScore`: round to four decimal places. -/
def toFixed4 (q : ℚ) : ℚ := (round (q * 10000) : ℤ) / 10000

/-- The service constant `MIN_REQUIRED_WEIGHT = 100`. -/
def MIN_REQUIRED_WEIGHT : ℚ := 100

/-- Embedding of `ClaimResolutionService.computeConfidenceScore`:
`null` when total weight is below `MIN_REQUIRED_WEIGHT`, `0` on a tie, else
`margin * participation` rounded to four decimals. -/
def computeConfidenceScore (trueWeight falseWeight : ℚ) : Option ℚ :=
  let total := trueWeight + falseWeight
  if total < MIN_REQUIRED_WEIGHT then none
  else if trueWeight = falseWeight then some 0
  else
    let margin := |trueWeight - falseWeight| / total
    let participation := min (total / MIN_REQUIRED_WEIGHT) 1
    some (toFixed4 (margin * participation))

/-! ### Sybil-resistant voting (`sybil-resistant-voting.service.ts`)

`calculateSybilWeightedVote` reads the latest composite Sybil score of the
user and scales the base weight; the score lookup is I/O, so the embedding
takes the fetched `compositeScore` as an argument and returns the
`(multiplier, finalWeight)` pair of the result object. -/

/-- Embedding of `SybilResistantVotingService.calculateSybilWeightedVote`:
`multiplier = 0.5 + 0.5 * compositeScore`, `finalWeight = baseWeight *
multiplier`. -/
def calculateSybilWeightedVote (compositeScore baseWeight : ℚ) : ℚ × ℚ :=
  let multiplier := 1/2 + (1/2 * compositeScore)
  let finalWeight := baseWeight * multiplier
  (multiplier, finalWeight)

/-! ### Reward synchronisation (`rewards/services/reward-sync.service.ts`)

The `reward_claims` table becomes a list of `RewardClaim` rows; the TypeORM
repository lookups become list functions.  Timestamps are kept as the
millisecond number `blockTimestamp * 1000` produced by `new Date(...)`. -/

/-- Row of the `reward_claims` table (`reward-claim.entity.ts`), with the
fields `processRewardClaim` writes. -/
structure RewardClaim where
  walletAddress : String
  amount : String
  claimId : String
  txHash : String
  blockNumber : Nat
  logIndex : Nat
  blockTimestampMs : Nat
  eventName : String
  isProcessed : Bool
deriving DecidableEq, Repr

/-- Input of `processRewardClaim` (`reward-claim-event.dto.ts` fields used by
the service). -/
structure RewardClaimEventDto where
  walletAddress : String
  amount : String
  claimId : String
  txHash : String
  blockNumber : Nat
  logIndex : Nat
  blockTimestamp : Nat
  eventName : String
deriving DecidableEq, Repr

/-- Embedding of `RewardClaimRepository.findByTxHashAndLogIndex`. -/
def findByTxHashAndLogIndex (store : List RewardClaim) (txHash : String)
    (logIndex : Nat) : Option RewardClaim :=
  store.find? (fun r => r.txHash = txHash ∧ r.logIndex = logIndex)

/-- Result kind of a persist call: freshly inserted, or an already-stored
duplicate returned unchanged. -/
inductive PersistOutcome where
  | inserted
  | duplicate
deriving DecidableEq, Repr

/-- The row `processRewardClaim` builds from the event DTO
(`rewardClaimRepo.create({...})`), wallet address lower-cased. -/
def mkRewardClaim (dto : RewardClaimEventDto) : RewardClaim :=
  { walletAddress := dto.walletAddress.toLower
    amount := dto.amount
    claimId := dto.claimId
    txHash := dto.txHash
    blockNumber := dto.blockNumber
    logIndex := dto.logIndex
    blockTimestampMs := dto.blockTimestamp * 1000
    eventName := dto.eventName
    isProcessed := true }

/-- Embedding of `RewardSyncService.processRewardClaim`: look up
`(txHash, logIndex)`; on a hit return the existing row and leave the store
untouched, otherwise insert the new row.  Returns (outcome, returned row,
updated store). -/
def processRewardClaim (store : List RewardClaim) (dto : RewardClaimEventDto) :
    PersistOutcome × RewardClaim × List RewardClaim :=
  match findByTxHashAndLogIndex store dto.txHash dto.logIndex with
  | some existing => (.duplicate, existing, store)
  | none =>
      let claim := mkRewardClaim dto
      (.inserted, claim, store ++ [claim])

/-- Iterated re-delivery of the same event: `persistMany n` runs
`processRewardClaim` on the same DTO `n` times, keeping only the store. -/
def persistMany : Nat → List RewardClaim → RewardClaimEventDto → List RewardClaim
  | 0, store, _ => store
  | n + 1, store, dto => persistMany n (processRewardClaim store dto).2.2 dto

/-- Number of stored rows with the given `(txHash, logIndex)` key. -/
def countByKey (store : List RewardClaim) (txHash : String) (logIndex : Nat) : Nat :=
  (store.filter (fun r => r.txHash = txHash ∧ r.logIndex = logIndex)).length

/-- Embedding of `RewardSyncService.getLastSyncedBlock`: the maximum of the
per-table `MAX(blockNumber)` values (each `0` on an empty table). -/
def getLastSyncedBlock (claimBlock distributionBlock : Nat) : Nat :=
  max claimBlock distributionBlock

/-! ### Historical backfill (`rewards/services/blockchain-listener.service.ts`)

`backfillHistoricalEvents` starts at `lastSyncedBlock || START_BLOCK` and walks
the chain in chunks of `CHUNK_SIZE = 10000` blocks up to the current head;
each chunk is handed to `processBlockRange`. -/

/-- The listener's chunk constant `CHUNK_SIZE = 10000`. -/
def CHUNK_SIZE : Nat := 10000

/-- The chunk loop of `backfillHistoricalEvents`:
`for (fromBlock = startBlock; fromBlock <= currentBlock; fromBlock += CHUNK_SIZE)`
with `toBlock = min(fromBlock + CHUNK_SIZE - 1, currentBlock)`. -/
def chunksFrom (fromBlock currentBlock : Nat) : List (Nat × Nat) :=
  if fromBlock ≤ currentBlock then
    (fromBlock, min (fromBlock + CHUNK_SIZE - 1) currentBlock) ::
      chunksFrom (fromBlock + CHUNK_SIZE) currentBlock
  else []
termination_by currentBlock + 1 - fromBlock
decreasing_by simp [CHUNK_SIZE]; omega

/-- Embedding of `backfillHistoricalEvents` as the list of scanned block
ranges: `startBlock = lastSyncedBlock || START_BLOCK` (JavaScript `||`, so the
configured start is used only when the synced block is `0`); no backfill when
`startBlock >= currentBlock`. -/
def backfillChunks (lastSyncedBlock startBlockConfig currentBlock : Nat) :
    List (Nat × Nat) :=
  let startBlock := if lastSyncedBlock = 0 then startBlockConfig else lastSyncedBlock
  if currentBlock ≤ startBlock then []
  else chunksFrom startBlock currentBlock

/-! ### Event application order (`processBlockRange`)

For one `[fromBlock, toBlock]` chunk, `processBlockRange` first loops over all
`RewardClaimed` logs of the range, then over all `RewardDistributed` logs; the
apply order is therefore the concatenation of the two per-type lists, each in
the order the RPC returned it. -/

/-- Position of a log in the chain: `(blockNumber, logIndex)`. -/
structure LogEvent where
  blockNumber : Nat
  logIndex : Nat
deriving DecidableEq, Repr

/-- Non-strict `(blockNumber, logIndex)` order on logs. -/
def keyLe (a b : LogEvent) : Bool :=
  a.blockNumber < b.blockNumber ||
    (a.blockNumber = b.blockNumber && a.logIndex ≤ b.logIndex)

/-- Strict `(blockNumber, logIndex)` order on logs. -/
def keyLt (a b : LogEvent) : Bool :=
  a.blockNumber < b.blockNumber ||
    (a.blockNumber = b.blockNumber && a.logIndex < b.logIndex)

/-- Embedding of `processBlockRange` as the order in which events of one chunk
reach the sync service: every `RewardClaimed` log first, then every
`RewardDistributed` log. -/
def processBlockRangeOrder (claimEvents distEvents : List LogEvent) : List LogEvent :=
  claimEvents ++ distEvents

/-! ### Design-doc ingestion engine (`idempotency-design.md`)

`processEvent` checks the `processed_events` table, then inside one
transaction inserts the event row, applies the business mutation, and bumps
the checkpoint with `last_block = GREATEST(last_block, blockNumber)`.  A
failure inside the transaction rolls everything back and rethrows.  The
fallible business mutation (`updateBalances` and the database I/O) is
abstracted by the oracle `applyOk`; everything else follows the pseudocode. -/

/-- Event consumed by `processEvent` (`BlockchainEvent`). -/
structure BlockchainEvent where
  txHash : String
  logIndex : Nat
  blockNumber : Nat
  eventType : String
deriving DecidableEq, Repr

/-- Uniqueness key of the `processed_events` table:
`(tx_hash, log_index, block_number)`. -/
def eventKey (e : BlockchainEvent) : String × Nat × Nat :=
  (e.txHash, e.logIndex, e.blockNumber)

/-- Database state touched by `processEvent`: the `processed_events` keys and
the `indexer_checkpoint.last_block` cursor. -/
structure IndexerDb where
  processedEvents : List (String × Nat × Nat)
  lastBlock : Nat
deriving DecidableEq, Repr

/-- Embedding of the design document's `processEvent`: skip when the key is
already stored; otherwise, if the transaction body succeeds, record the key
and set `last_block = GREATEST(last_block, blockNumber)`; if it fails, roll
back (state unchanged) and propagate the error. -/
def processEvent (applyOk : BlockchainEvent → Bool) (db : IndexerDb)
    (e : BlockchainEvent) : Except Unit IndexerDb :=
  if eventKey e ∈ db.processedEvents then .ok db
  else if applyOk e then
    .ok { processedEvents := eventKey e :: db.processedEvents
          lastBlock := max db.lastBlock e.blockNumber }
  else .error ()

/-- One delivered event with the caller's per-event error handling (the
listener's `try/catch` around each event): a failed event leaves the state
unchanged. -/
def processStep (applyOk : BlockchainEvent → Bool) (db : IndexerDb)
    (e : BlockchainEvent) : IndexerDb :=
  match processEvent applyOk db e with
  | .ok db2 => db2
  | .error _ => db

/-- One ingestion cycle over a list of delivered events. -/
def processCycle (applyOk : BlockchainEvent → Bool) (db : IndexerDb)
    (events : List BlockchainEvent) : IndexerDb :=
  events.foldl (processStep applyOk) db

/-- Row of the `processed_events` table as created by `processEvent`. -/
structure ProcessedEventRow where
  txHash : String
  logIndex : Nat
  blockNumber : Nat
  eventType : String
deriving DecidableEq, Repr

/-- Deletion phase of the design document's `replayFromBlock`:
`DELETE FROM processed_events WHERE block_number >= startBlock` — the rows
kept are exactly those below `startBlock`. -/
def replayDeletePhase (rows : List ProcessedEventRow) (startBlock : Nat) :
    List ProcessedEventRow :=
  rows.filter (fun r => r.blockNumber < startBlock)

/-! ### Indexed events (`indexed_events` table of migration
`CreateUserAndWallet1769422695901`)

The migration declares the table with defaults `confirmations = 0`,
`isFinalized = false`, `isProcessed = false`, `retryAttempts = 0` and the two
unique indexes `(transactionHash, logIndex, eventType)` and
`(blockNumber, logIndex)`.  The repository contains only this declaration —
the services operating on the table are missing from `src/` — so the
operations below are modelled from the specification and marked as such. -/

/-- Row of the `indexed_events` table, fields from the migration DDL. -/
structure IndexedEvent where
  eventType : String
  contractAddress : String
  transactionHash : String
  blockNumber : Nat
  logIndex : Nat
  chainId : Nat
  eventData : String
  parsedData : String
  confirmations : Nat
  isFinalized : Bool
  isProcessed : Bool
  processingError : Option String
  retryAttempts : Nat
deriving DecidableEq, Repr

/-- A freshly observed event row, with the column defaults of the migration:
`confirmations = 0`, `isFinalized = false`, `isProcessed = false`,
`retryAttempts = 0`, `processingError` null. -/
def newIndexedEvent (eventType contractAddress transactionHash : String)
    (blockNumber logIndex chainId : Nat) (eventData parsedData : String) :
    IndexedEvent :=
  { eventType := eventType
    contractAddress := contractAddress
    transactionHash := transactionHash
    blockNumber := blockNumber
    logIndex := logIndex
    chainId := chainId
    eventData := eventData
    parsedData := parsedData
    confirmations := 0
    isFinalized := false
    isProcessed := false
    processingError := none
    retryAttempts := 0 }

/-- First uniqueness key of `indexed_events`:
`(transactionHash, logIndex, eventType)`. -/
def key1 (e : IndexedEvent) : String × Nat × String :=
  (e.transactionHash, e.logIndex, e.eventType)

/-- Second uniqueness key of `indexed_events`: `(blockNumber, logIndex)`. -/
def key2 (e : IndexedEvent) : Nat × Nat :=
  (e.blockNumber, e.logIndex)

/-- Both uniqueness constraints of the migration hold on the store: no two
rows share `key1` and no two rows share `key2`. -/
def DualUnique (store : List IndexedEvent) : Prop :=
  store.Pairwise (fun a b => key1 a ≠ key1 b ∧ key2 a ≠ key2 b)

instance : DecidablePred DualUnique := fun store =>
  List.instDecidablePairwise store

/-- Modelled from the spec: `persist(event) → {inserted | duplicate}` of the
Event Store (§4.2) — the service code for `indexed_events` is missing from
`src/`; if either unique key already matches a stored row the call is a
no-op returning `duplicate`, otherwise the row is inserted. -/
def persistIndexed (store : List IndexedEvent) (e : IndexedEvent) :
    PersistOutcome × List IndexedEvent :=
  if store.any (fun r => decide (key1 r = key1 e) || decide (key2 r = key2 e)) then
    (.duplicate, store)
  else (.inserted, e :: store)

/-- Modelled from the spec: `markFinalized(eventId)` of the Event Store
(§4.2), missing from `src/`; sets `isFinalized` on the row with the given
identity, touching nothing else. -/
def markFinalized (store : List IndexedEvent) (k : String × Nat × String) :
    List IndexedEvent :=
  store.map (fun r => if key1 r = k then { r with isFinalized := true } else r)

/-- Modelled from the spec: `markProcessed(eventId, ts)` of the Event Store
(§4.2), missing from `src/`; sets `isProcessed` on the row with the given
identity. -/
def markProcessed (store : List IndexedEvent) (k : String × Nat × String) :
    List IndexedEvent :=
  store.map (fun r => if key1 r = k then { r with isProcessed := true } else r)

/-- Modelled from the spec: `recordProcessingFailure(eventId, message)` of the
Event Store (§4.2), missing from `src/`; increments `retryAttempts` and
records the error message. -/
def recordProcessingFailure (store : List IndexedEvent)
    (k : String × Nat × String) (message : String) : List IndexedEvent :=
  store.map (fun r =>
    if key1 r = k then
      { r with retryAttempts := r.retryAttempts + 1, processingError := some message }
    else r)

/-- Modelled from the spec: the Confirmation Tracker pass (§4.3), missing from
`src/`; for an unfinalized event whose block is at least `confirmationsRequired`
behind the head (`blockNumber ≤ H - C`, read over the integers), set
`confirmations = H - blockNumber` and finalize. -/
def confirmationPass (head required : Nat) (e : IndexedEvent) : IndexedEvent :=
  if e.isFinalized = false ∧ e.blockNumber + required ≤ head then
    { e with confirmations := head - e.blockNumber, isFinalized := true }
  else e

/-- Modelled from the spec: the confirmation-tracking pass over the whole
store (§4.3). -/
def trackConfirmations (head required : Nat) (store : List IndexedEvent) :
    List IndexedEvent :=
  store.map (confirmationPass head required)

/-- Modelled from the spec: the deletion step of `reconcile(source, fromBlock)`
(§4.4), missing from `src/`; drop every non-finalized row with
`blockNumber ≥ fromBlock`. -/
def reconcileDelete (store : List IndexedEvent) (fromBlock : Nat) :
    List IndexedEvent :=
  store.filter (fun r => ¬(fromBlock ≤ r.blockNumber ∧ r.isFinalized = false))

/-! ### Verification aggregation (`aggregation.service.ts`)

`aggregate` is pure; stakes and reputation weights are embedded over `ℚ`, the
`Math.round` of `computeConfidence` as the integer `round`. -/

/-- The `VerificationVerdict` enum. -/
inductive VerificationVerdict where
  | TRUE
  | FALSE
deriving DecidableEq, Repr

/-- The `ClaimStatus` enum. -/
inductive ClaimStatus where
  | VERIFIED_TRUE
  | VERIFIED_FALSE
  | INCONCLUSIVE
deriving DecidableEq, Repr

/-- The fields of a `Verification` read by `aggregate`. -/
structure Verification where
  verdict : VerificationVerdict
  stakeAmount : ℚ
  reputationWeight : ℚ
deriving DecidableEq, Repr

/-- Result of `aggregate` (identifier and timestamps omitted). -/
structure AggregationResult where
  status : ClaimStatus
  confidence : ℤ
  trueWeight : ℚ
  falseWeight : ℚ
  verificationCount : Nat
deriving DecidableEq, Repr

/-- Embedding of the private `computeWeight`:
`stakeAmount * reputationWeight`. -/
def computeWeight (v : Verification) : ℚ :=
  v.stakeAmount * v.reputationWeight

/-- Embedding of the private `computeConfidence`:
`Math.round((winningWeight / totalWeight) * 100)`. -/
def computeConfidence (winningWeight totalWeight : ℚ) : ℤ :=
  round (winningWeight / totalWeight * 100)

/-- Embedding of the private `inconclusiveResult` helper. -/
def inconclusiveResult (trueWeight falseWeight : ℚ) (count : Nat) :
    AggregationResult :=
  { status := .INCONCLUSIVE
    confidence := 0
    trueWeight := trueWeight
    falseWeight := falseWeight
    verificationCount := count }

/-- One iteration of the accumulation loop of `aggregate`: add the
verification's weight to the `TRUE` or the `FALSE` total. -/
def addVerification (acc : ℚ × ℚ) (v : Verification) : ℚ × ℚ :=
  if v.verdict = .TRUE then (acc.1 + computeWeight v, acc.2)
  else (acc.1, acc.2 + computeWeight v)

/-- The accumulation loop of `aggregate`: fold the verifications into the
`(trueWeight, falseWeight)` totals. -/
def sumWeights (verifications : List Verification) : ℚ × ℚ :=
  verifications.foldl addVerification (0, 0)

/-- Embedding of `AggregationService.aggregate`, all branches included:
empty input, zero total weight, tie, the low-confidence safeguard, and the
verified result (the method's local bindings are inlined). -/
def aggregate (verifications : List Verification) : AggregationResult :=
  if verifications.length = 0 then
    { status := .INCONCLUSIVE
      confidence := 0
      trueWeight := 0
      falseWeight := 0
      verificationCount := 0 }
  else if (sumWeights verifications).1 + (sumWeights verifications).2 = 0 then
    inconclusiveResult (sumWeights verifications).1 (sumWeights verifications).2
      verifications.length
  else if (sumWeights verifications).1 = (sumWeights verifications).2 then
    inconclusiveResult (sumWeights verifications).1 (sumWeights verifications).2
      verifications.length
  else if computeConfidence
      (max (sumWeights verifications).1 (sumWeights verifications).2)
      ((sumWeights verifications).1 + (sumWeights verifications).2) < 10 then
    inconclusiveResult (sumWeights verifications).1 (sumWeights verifications).2
      verifications.length
  else
    { status :=
        if (sumWeights verifications).2 < (sumWeights verifications).1 then
          .VERIFIED_TRUE
        else .VERIFIED_FALSE
      confidence := computeConfidence
        (max (sumWeights verifications).1 (sumWeights verifications).2)
        ((sumWeights verifications).1 + (sumWeights verifications).2)
      trueWeight := (sumWeights verifications).1
      falseWeight := (sumWeights verifications).2
      verificationCount := verifications.length }

/-! ## Theorems -/

/-- Claim C10: for a latest composite Sybil score `s ∈ [0, 1]` and base weight
`w ≥ 0`, `calculateSybilWeightedVote` returns `multiplier = 0.5 + 0.5 * s` and
`finalWeight = w * multiplier`, so the final weight lies between `w / 2` and
`w`, is monotone in `s`, and is `0` when `w = 0`; being a pure function of
`(s, w)`, the result is deterministic. -/
theorem calculateSybilWeightedVote_spec (s w : ℚ)
    (hs0 : 0 ≤ s) (hs1 : s ≤ 1) (hw : 0 ≤ w) :
    (calculateSybilWeightedVote s w).1 = 1/2 + 1/2 * s ∧
    (calculateSybilWeightedVote s w).2 = w * (1/2 + 1/2 * s) ∧
    w / 2 ≤ (calculateSybilWeightedVote s w).2 ∧
    (calculateSybilWeightedVote s w).2 ≤ w ∧
    (∀ s', s ≤ s' →
      (calculateSybilWeightedVote s w).2 ≤ (calculateSybilWeightedVote s' w).2) ∧
    (w = 0 → (calculateSybilWeightedVote s w).2 = 0) := by
  refine ⟨rfl, rfl, ?_, ?_, ?_, ?_⟩
  · simp only [calculateSybilWeightedVote]
    nlinarith
  · simp only [calculateSybilWeightedVote]
    nlinarith
  · intro s' hs'
    simp only [calculateSybilWeightedVote]
    nlinarith
  · intro h0
    simp [calculateSybilWeightedVote, h0]

/-- Witness for C10 at `s = 0.8`, `w = 100` (the documented `0.9 → 90`
example). -/
theorem calculateSybilWeightedVote_spec_witness :
    (calculateSybilWeightedVote (4/5) 100).2 = 100 * (1/2 + 1/2 * (4/5)) :=
  (calculateSybilWeightedVote_spec (4/5) 100 (by norm_num) (by norm_num)
    (by norm_num)).2.1

/-- Counterexample to C8 as stated: at `trueWeight = 100000`,
`falseWeight = 100001` the total is at least `100` and the weights differ, yet
the returned score is exactly `0`, not strictly greater than `0` (the margin
`1 / 200001` rounds to `0.0000`). -/
theorem computeConfidenceScore_zero_on_tiny_margin :
    computeConfidenceScore 100000 100001 = some 0 ∧
    (100000 : ℚ) ≠ 100001 ∧
    MIN_REQUIRED_WEIGHT ≤ (100000 : ℚ) + 100001 := by
  refine ⟨?_, by norm_num, by norm_num [MIN_REQUIRED_WEIGHT]⟩
  rw [computeConfidenceScore]
  norm_num [MIN_REQUIRED_WEIGHT]
  rw [toFixed4, round_eq]
  norm_num

/-- Rounding to four decimals keeps a value of `[0, 1]` inside `[0, 1]`. -/
theorem toFixed4_mem_unitInterval (x : ℚ) (h0 : 0 ≤ x) (h1 : x ≤ 1) :
    0 ≤ toFixed4 x ∧ toFixed4 x ≤ 1 := by
  have hlo : (0 : ℤ) ≤ round (x * 10000) := by
    rw [round_eq]
    refine Int.le_floor.mpr ?_
    push_cast
    nlinarith
  have hhi : round (x * 10000) ≤ 10000 := by
    rw [round_eq]
    have h2 : ⌊x * 10000 + 1 / 2⌋ < (10001 : ℤ) := by
      refine Int.floor_lt.mpr ?_
      push_cast
      nlinarith
    omega
  rw [toFixed4]
  constructor
  · refine div_nonneg ?_ (by norm_num)
    exact_mod_cast hlo
  · rw [div_le_one (by norm_num)]
    exact_mod_cast hhi

/-- Claim C8 as amended: for non-negative weights, `computeConfidenceScore`
returns `null` exactly when the total weight is below `100`; returns `0` on a
tie with total at least `100`; and otherwise returns
`|trueWeight - falseWeight| / total` rounded to four decimal places — a value
at least `0` (possibly exactly `0`, when the margin is below `0.00005`) and at
most `1`, the participation factor being `1` on this branch. -/
theorem computeConfidenceScore_spec (t f : ℚ) (ht : 0 ≤ t) (hf : 0 ≤ f) :
    (computeConfidenceScore t f = none ↔ t + f < 100) ∧
    (100 ≤ t + f → t = f → computeConfidenceScore t f = some 0) ∧
    (100 ≤ t + f → t ≠ f →
      computeConfidenceScore t f = some (toFixed4 (|t - f| / (t + f))) ∧
      0 ≤ toFixed4 (|t - f| / (t + f)) ∧ toFixed4 (|t - f| / (t + f)) ≤ 1) := by
  have htot : MIN_REQUIRED_WEIGHT = (100 : ℚ) := rfl
  refine ⟨?_, ?_, ?_⟩
  · rw [computeConfidenceScore]
    simp only [htot]
    split_ifs with h1 h2 <;> simp [h1]
  · intro hge heq
    rw [computeConfidenceScore]
    simp only [htot]
    rw [if_neg (by linarith), if_pos heq]
  · intro hge hne
    have hpos : 0 < t + f := by linarith
    have hpart : min ((t + f) / (100 : ℚ)) 1 = 1 := by
      rw [min_eq_right]
      rw [le_div_iff₀ (by norm_num : (0 : ℚ) < 100)]
      linarith
    have habs : |t - f| ≤ t + f := by
      rw [abs_le]
      constructor <;> linarith
    have hmargin0 : 0 ≤ |t - f| / (t + f) := div_nonneg (abs_nonneg _) hpos.le
    have hmargin1 : |t - f| / (t + f) ≤ 1 := by
      rw [div_le_one hpos]
      exact habs
    refine ⟨?_, (toFixed4_mem_unitInterval _ hmargin0 hmargin1).1,
      (toFixed4_mem_unitInterval _ hmargin0 hmargin1).2⟩
    rw [computeConfidenceScore]
    simp only [htot]
    rw [if_neg (by linarith), if_neg hne, hpart, mul_one]

/-- Witness for C8 (amended) at the in-range point `t = 60`, `f = 40`:
total `100`, margin `0.2`. -/
theorem computeConfidenceScore_spec_witness :
    computeConfidenceScore 60 40 = some (toFixed4 (|(60 : ℚ) - 40| / (60 + 40))) :=
  ((computeConfidenceScore_spec 60 40 (by norm_num) (by norm_num)).2.2
    (by norm_num) (by norm_num)).1

/-- A store that already holds a row with the event's `(txHash, logIndex)` key
is returned unchanged, together with that row and `duplicate`. -/
theorem processRewardClaim_of_found (store : List RewardClaim)
    (dto : RewardClaimEventDto) (r : RewardClaim)
    (h : findByTxHashAndLogIndex store dto.txHash dto.logIndex = some r) :
    processRewardClaim store dto = (.duplicate, r, store) := by
  rw [processRewardClaim, h]

/-- Claim C1: persisting the same reward-claim event twice leaves exactly one
stored row; the second call (and every further re-delivery) returns the
existing row as a `duplicate` without error and without touching the store. -/
theorem processRewardClaim_idempotent (store : List RewardClaim)
    (dto : RewardClaimEventDto)
    (hfresh : findByTxHashAndLogIndex store dto.txHash dto.logIndex = none) :
    (processRewardClaim store dto).1 = .inserted ∧
    countByKey (processRewardClaim store dto).2.2 dto.txHash dto.logIndex = 1 ∧
    processRewardClaim (processRewardClaim store dto).2.2 dto =
      (.duplicate, mkRewardClaim dto, (processRewardClaim store dto).2.2) ∧
    ∀ n, persistMany n (processRewardClaim store dto).2.2 dto =
      (processRewardClaim store dto).2.2 := by
  have hkey1 : (mkRewardClaim dto).txHash = dto.txHash := rfl
  have hkey2 : (mkRewardClaim dto).logIndex = dto.logIndex := rfl
  have hs1 : (processRewardClaim store dto).2.2 = store ++ [mkRewardClaim dto] := by
    rw [processRewardClaim, hfresh]
  have hfind1 :
      findByTxHashAndLogIndex (store ++ [mkRewardClaim dto]) dto.txHash dto.logIndex
        = some (mkRewardClaim dto) := by
    rw [findByTxHashAndLogIndex, List.find?_append]
    rw [findByTxHashAndLogIndex] at hfresh
    rw [hfresh, Option.none_or]
    simp [List.find?, hkey1, hkey2]
  have hsecond :
      processRewardClaim (store ++ [mkRewardClaim dto]) dto =
        (.duplicate, mkRewardClaim dto, store ++ [mkRewardClaim dto]) :=
    processRewardClaim_of_found _ _ _ hfind1
  refine ⟨by rw [processRewardClaim, hfresh], ?_, ?_, ?_⟩
  · rw [hs1, countByKey, List.filter_append]
    have hnil :
        store.filter (fun r =>
          decide (r.txHash = dto.txHash ∧ r.logIndex = dto.logIndex)) = [] := by
      refine List.filter_eq_nil_iff.mpr ?_
      intro r hr
      have := List.find?_eq_none.mp hfresh r hr
      simpa using this
    rw [hnil, List.nil_append]
    simp [List.filter, hkey1, hkey2]
  · rw [hs1]
    exact hsecond
  · intro n
    rw [hs1]
    induction n with
    | zero => rfl
    | succ m ih =>
        rw [persistMany, hsecond]
        exact ih

/-- Witness for C1: the spec's example event `(txHash = 0xabc, logIndex = 2,
blockNumber = 100)` delivered into an empty store. -/
theorem processRewardClaim_idempotent_witness :
    (processRewardClaim []
      ⟨"0xAB", "5", "c1", "0xabc", 100, 2, 7, "Transfer"⟩).1 = .inserted ∧
    countByKey (processRewardClaim []
      ⟨"0xAB", "5", "c1", "0xabc", 100, 2, 7, "Transfer"⟩).2.2 "0xabc" 2 = 1 := by
  have h := processRewardClaim_idempotent []
    ⟨"0xAB", "5", "c1", "0xabc", 100, 2, 7, "Transfer"⟩ rfl
  exact ⟨h.1, h.2.1⟩

/-- Counterexample to C6 as stated: after committing block `150` with head
`200`, the first scanned range starts at block `150` itself — the committed
block is re-scanned — not at `151` as the claim requires. -/
theorem backfillChunks_restarts_at_cursor :
    backfillChunks 150 0 200 = [(150, 200)] ∧ (150 : Nat) ≠ 150 + 1 := by
  refine ⟨?_, by omega⟩
  simp [backfillChunks, chunksFrom, CHUNK_SIZE]

/-- Claim C6 as amended: for a committed cursor `c > 0` and head `h`, backfill
is skipped when `c ≥ h`, and otherwise the first scanned range is
`[c, min(c + CHUNK_SIZE - 1, h)]` with `CHUNK_SIZE = 10000` — a restart after
committing block 150 re-scans block 150, relying on the idempotent persist
(C1) rather than on never touching committed blocks. -/
theorem backfillChunks_spec (c cfg h : Nat) (hc : 0 < c) :
    (h ≤ c → backfillChunks c cfg h = []) ∧
    (c < h → (backfillChunks c cfg h).head? =
      some (c, min (c + CHUNK_SIZE - 1) h)) := by
  have hne : c ≠ 0 := Nat.pos_iff_ne_zero.mp hc
  constructor
  · intro hch
    rw [backfillChunks]
    simp [hne, hch]
  · intro hch
    rw [backfillChunks]
    simp only [hne, if_false, not_le.mpr hch]
    rw [chunksFrom, if_pos (Nat.le_of_lt hch)]
    rfl

/-- Witness for C6 (amended) at cursor `150`, head `200`: the first range is
`[150, 200]`. -/
theorem backfillChunks_spec_witness :
    (backfillChunks 150 0 200).head? = some (150, min (150 + CHUNK_SIZE - 1) 200) :=
  (backfillChunks_spec 150 0 200 (by omega)).2 (by omega)

/-- Counterexample to C4 as stated: with `fromBlock = 100` at or below a
`lastFinalizedBlockNumber` of `150`, the claim requires the replay to be
rejected with no state change, but `replayFromBlock` has no such guard: its
delete phase removes the stored row at block `100`. -/
theorem replayDelete_has_no_finalized_guard :
    (100 : Nat) ≤ 150 ∧
    replayDeletePhase [⟨"0xabc", 0, 100, "Transfer"⟩] 100 = [] := by
  refine ⟨by omega, ?_⟩
  simp [replayDeletePhase]

/-- Claim C4 as amended: `replayFromBlock` performs no check against
`lastFinalizedBlockNumber` and exempts nothing: for every `fromBlock` its
delete phase removes exactly the `processed_events` rows with
`block_number ≥ fromBlock` (the table has no finalized flag), keeping every
row with `block_number < fromBlock` unchanged. -/
theorem replayDeletePhase_spec (rows : List ProcessedEventRow) (fromBlock : Nat)
    (r : ProcessedEventRow) :
    r ∈ replayDeletePhase rows fromBlock ↔ r ∈ rows ∧ r.blockNumber < fromBlock := by
  simp [replayDeletePhase]

/-- Counterexample to C3 as stated: in a range holding a `RewardClaimed` log
at `(105, 3)` and a `RewardDistributed` log at `(100, 0)`, the distribution
event has the strictly smaller `(blockNumber, logIndex)` key yet is applied
second, because `processBlockRange` loops over all claim events before any
distribution event. -/
theorem processBlockRangeOrder_violates_cross_type_order :
    keyLt ⟨100, 0⟩ ⟨105, 3⟩ = true ∧
    processBlockRangeOrder [⟨105, 3⟩] [⟨100, 0⟩] =
      [⟨105, 3⟩, ⟨100, 0⟩] ∧
    ¬ List.Pairwise (fun a b => keyLe a b = true)
      (processBlockRangeOrder [⟨105, 3⟩] [⟨100, 0⟩]) := by
  refine ⟨by decide, rfl, ?_⟩
  decide

/-- Claim C3 as amended: within one block range, each event type is applied
in the order its log query returned it (non-decreasing `(blockNumber,
logIndex)` when the source reports logs sorted), but all `RewardClaimed`
events are applied before all `RewardDistributed` events; the combined apply
order respects `(blockNumber, logIndex)` exactly when every claim-event key
is at most every distribution-event key. -/
theorem processBlockRangeOrder_sorted_iff (claims dists : List LogEvent)
    (hc : List.Pairwise (fun a b => keyLe a b = true) claims)
    (hd : List.Pairwise (fun a b => keyLe a b = true) dists) :
    List.Pairwise (fun a b => keyLe a b = true)
        (processBlockRangeOrder claims dists) ↔
      ∀ c ∈ claims, ∀ d ∈ dists, keyLe c d = true := by
  rw [processBlockRangeOrder, List.pairwise_append]
  simp [hc, hd]

/-- Witness for C3 (amended): two sorted per-type lists whose concatenation
is sorted because every claim key precedes every distribution key. -/
theorem processBlockRangeOrder_sorted_iff_witness :
    List.Pairwise (fun a b => keyLe a b = true)
      (processBlockRangeOrder [⟨100, 0⟩, ⟨100, 1⟩] [⟨101, 0⟩]) :=
  (processBlockRangeOrder_sorted_iff [⟨100, 0⟩, ⟨100, 1⟩] [⟨101, 0⟩]
    (by decide) (by decide)).mpr (by decide)

/-- Counterexample to C2 as stated: deliver an event at block `100` whose
apply fails and an event at block `101` whose apply succeeds.  After the
cycle the committed cursor `last_block` is `101` — it advanced past `99` —
while the block-`100` event (a block at or below the cursor) was never
processed, because `processEvent` commits
`last_block = GREATEST(last_block, blockNumber)` per succeeding event rather
than a contiguous-prefix bound. -/
theorem processCycle_advances_past_failed_block :
    processCycle (fun e => e.blockNumber != 100) ⟨[], 0⟩
        [⟨"0xaaa", 0, 100, "Transfer"⟩, ⟨"0xbbb", 0, 101, "Transfer"⟩] =
      ⟨[("0xbbb", 0, 101)], 101⟩ ∧
    99 <
      (processCycle (fun e => e.blockNumber != 100) ⟨[], 0⟩
        [⟨"0xaaa", 0, 100, "Transfer"⟩, ⟨"0xbbb", 0, 101, "Transfer"⟩]).lastBlock ∧
    ("0xaaa", 0, 100) ∉
      (processCycle (fun e => e.blockNumber != 100) ⟨[], 0⟩
        [⟨"0xaaa", 0, 100, "Transfer"⟩, ⟨"0xbbb", 0, 101, "Transfer"⟩]).processedEvents := by
  refine ⟨by decide, by decide, by decide⟩

/-- The `last_block` cursor never decreases across a processed event. -/
theorem processStep_lastBlock_le (applyOk : BlockchainEvent → Bool)
    (db : IndexerDb) (e : BlockchainEvent) :
    db.lastBlock ≤ (processStep applyOk db e).lastBlock := by
  rw [processStep, processEvent]
  split_ifs with h1 h2
  · exact le_refl _
  · exact le_max_left _ _
  · exact le_refl _

/-- The `last_block` cursor never decreases across a cycle. -/
theorem processCycle_lastBlock_le (applyOk : BlockchainEvent → Bool) :
    ∀ (events : List BlockchainEvent) (db : IndexerDb),
      db.lastBlock ≤ (processCycle applyOk db events).lastBlock := by
  intro events
  induction events with
  | nil => intro db; exact le_refl _
  | cons e es ih =>
      intro db
      exact le_trans (processStep_lastBlock_le applyOk db e)
        (ih (processStep applyOk db e))

/-- Claim C2 as amended: `processEvent` commits the checkpoint per event —
on a successful apply of a new event it records the key and sets
`last_block = GREATEST(last_block, blockNumber)`; on a failed apply the
transaction rolls back, leaving the state unchanged while the cycle
continues; the committed cursor is therefore the highest successfully
applied block (never decreasing), not the largest block whose entire prefix
of events is processed — in the claim's own example the cursor ends at
`101`, not `99`. -/
theorem processEvent_cursor_semantics (applyOk : BlockchainEvent → Bool)
    (db : IndexerDb) (e : BlockchainEvent)
    (hnew : eventKey e ∉ db.processedEvents) :
    (applyOk e = true →
      processEvent applyOk db e =
        .ok ⟨eventKey e :: db.processedEvents, max db.lastBlock e.blockNumber⟩) ∧
    (applyOk e = false →
      processEvent applyOk db e = .error () ∧ processStep applyOk db e = db) ∧
    (∀ events, db.lastBlock ≤ (processCycle applyOk db events).lastBlock) ∧
    (processCycle (fun ev => ev.blockNumber != 100) ⟨[], 0⟩
        [⟨"0xaaa", 0, 100, "Transfer"⟩, ⟨"0xbbb", 0, 101, "Transfer"⟩]).lastBlock
      = 101 := by
  refine ⟨?_, ?_, fun events => processCycle_lastBlock_le applyOk events db, by decide⟩
  · intro h
    rw [processEvent, if_neg hnew, if_pos h]
  · intro h
    have hp : processEvent applyOk db e = .error () := by
      rw [processEvent, if_neg hnew, if_neg (by simp [h])]
    exact ⟨hp, by rw [processStep, hp]⟩

/-- Witness for C2 (amended): a fresh event at block `101` applied onto the
empty database sets the cursor to `101` and records the key. -/
theorem processEvent_cursor_semantics_witness :
    processEvent (fun ev => ev.blockNumber != 100) ⟨[], 0⟩
        ⟨"0xbbb", 0, 101, "Transfer"⟩ =
      .ok ⟨[eventKey ⟨"0xbbb", 0, 101, "Transfer"⟩], max 0 101⟩ :=
  (processEvent_cursor_semantics (fun ev => ev.blockNumber != 100) ⟨[], 0⟩
    ⟨"0xbbb", 0, 101, "Transfer"⟩ (by decide)).1 (by decide)

/-- Claim C5: a newly stored indexed event has `confirmations = 0` and
`isFinalized = false` (the column defaults of the migration), and after a
confirmation-tracking pass at head `H` with `confirmationsRequired = C` it is
finalized exactly when `H - blockNumber ≥ C`, with `confirmations` then set
to `H - blockNumber` — never earlier. -/
theorem confirmationPass_threshold (et ca tx : String) (b li chain : Nat)
    (ed pd : String) (head required : Nat) :
    ((newIndexedEvent et ca tx b li chain ed pd).confirmations = 0 ∧
      (newIndexedEvent et ca tx b li chain ed pd).isFinalized = false) ∧
    ((confirmationPass head required
        (newIndexedEvent et ca tx b li chain ed pd)).isFinalized = true ↔
      (required : ℤ) ≤ (head : ℤ) - (b : ℤ)) ∧
    ((confirmationPass head required
        (newIndexedEvent et ca tx b li chain ed pd)).confirmations =
      if b + required ≤ head then head - b else 0) := by
  refine ⟨⟨rfl, rfl⟩, ?_, ?_⟩
  · rw [confirmationPass]
    by_cases hcond : b + required ≤ head
    · rw [if_pos ⟨rfl, hcond⟩]
      simp only [true_iff]
      omega
    · rw [if_neg (by simpa [newIndexedEvent] using hcond)]
      simp only [newIndexedEvent, Bool.false_eq_true, false_iff]
      omega
  · rw [confirmationPass]
    by_cases hcond : b + required ≤ head
    · rw [if_pos ⟨rfl, hcond⟩, if_pos hcond]
      rfl
    · rw [if_neg (by simpa [newIndexedEvent] using hcond), if_neg hcond]
      rfl

/-- Witness for C5: the spec's example — `confirmationsRequired = 12`, event
at block `100` — is unfinalized at head `105` and finalized at head `112`. -/
theorem confirmationPass_threshold_witness :
    (confirmationPass 112 12
      (newIndexedEvent "Transfer" "0xc" "0xabc" 100 2 1 "d" "p")).isFinalized = true :=
  (confirmationPass_threshold "Transfer" "0xc" "0xabc" 100 2 1 "d" "p"
    112 12).2.1.mpr (by norm_num)

/-- A row rewrite that keeps both uniqueness keys keeps the store
dual-unique. -/
theorem dualUnique_map (store : List IndexedEvent) (g : IndexedEvent → IndexedEvent)
    (hg : ∀ r, key1 (g r) = key1 r ∧ key2 (g r) = key2 r)
    (h : DualUnique store) : DualUnique (store.map g) := by
  rw [DualUnique, List.pairwise_map]
  refine h.imp ?_
  intro a b hab
  rw [(hg a).1, (hg a).2, (hg b).1, (hg b).2]
  exact hab

/-- Updating the non-key columns of the row matching identity `k` keeps both
keys of every row. -/
theorem update_keeps_keys (k : String × Nat × String)
    (upd : IndexedEvent → IndexedEvent)
    (h1 : ∀ r, key1 (upd r) = key1 r) (h2 : ∀ r, key2 (upd r) = key2 r) :
    ∀ r : IndexedEvent,
      key1 (if key1 r = k then upd r else r) = key1 r ∧
      key2 (if key1 r = k then upd r else r) = key2 r := by
  intro r
  by_cases hk : key1 r = k
  · rw [if_pos hk]
    exact ⟨h1 r, h2 r⟩
  · rw [if_neg hk]
    exact ⟨rfl, rfl⟩

/-- Claim C7: both uniqueness keys of `indexed_events` are invariants of the
store — `persist` refuses (as a no-op `duplicate`) any row matching either
key of a stored row and inserts otherwise, preserving dual uniqueness;
`markFinalized`, `markProcessed`, `recordProcessingFailure`, the
confirmation pass and the reconciliation delete touch no key column, so they
preserve it as well. -/
theorem indexedStore_dualUnique_invariant (store : List IndexedEvent)
    (e : IndexedEvent) (k : String × Nat × String) (msg : String)
    (head required fromBlock : Nat) (h : DualUnique store) :
    DualUnique (persistIndexed store e).2 ∧
    ((∃ r ∈ store, key1 r = key1 e ∨ key2 r = key2 e) →
      persistIndexed store e = (.duplicate, store)) ∧
    ((∀ r ∈ store, key1 r ≠ key1 e ∧ key2 r ≠ key2 e) →
      persistIndexed store e = (.inserted, e :: store)) ∧
    DualUnique (markFinalized store k) ∧
    DualUnique (markProcessed store k) ∧
    DualUnique (recordProcessingFailure store k msg) ∧
    DualUnique (trackConfirmations head required store) ∧
    DualUnique (reconcileDelete store fromBlock) := by
  refine ⟨?_, ?_, ?_, ?_, ?_, ?_, ?_, ?_⟩
  · rw [persistIndexed]
    by_cases hany :
        store.any (fun r => decide (key1 r = key1 e) || decide (key2 r = key2 e)) = true
    · rw [if_pos hany]
      exact h
    · rw [if_neg hany]
      have hall : ∀ r ∈ store, ¬(key1 r = key1 e ∨ key2 r = key2 e) := by
        intro r hr hor
        refine hany ?_
        simp only [List.any_eq_true, Bool.or_eq_true, decide_eq_true_eq]
        exact ⟨r, hr, hor⟩
      refine List.Pairwise.cons ?_ h
      intro r hr
      have hk := hall r hr
      push_neg at hk
      exact ⟨fun he => hk.1 he.symm, fun he => hk.2 he.symm⟩
  · intro hex
    rw [persistIndexed, if_pos]
    simp only [List.any_eq_true, Bool.or_eq_true, decide_eq_true_eq]
    obtain ⟨r, hr, hor⟩ := hex
    exact ⟨r, hr, hor⟩
  · intro hall
    have hne :
        ¬ store.any
          (fun r => decide (key1 r = key1 e) || decide (key2 r = key2 e)) = true := by
      intro hc
      simp only [List.any_eq_true, Bool.or_eq_true, decide_eq_true_eq] at hc
      obtain ⟨r, hr, hor⟩ := hc
      rcases hor with h1 | h2
      · exact (hall r hr).1 h1
      · exact (hall r hr).2 h2
    rw [persistIndexed, if_neg hne]
  · exact dualUnique_map store _
      (update_keeps_keys k _ (fun r => rfl) (fun r => rfl)) h
  · exact dualUnique_map store _
      (update_keeps_keys k _ (fun r => rfl) (fun r => rfl)) h
  · exact dualUnique_map store _
      (update_keeps_keys k _ (fun r => rfl) (fun r => rfl)) h
  · refine dualUnique_map store _ ?_ h
    intro r
    rw [confirmationPass]
    by_cases hc : r.isFinalized = false ∧ r.blockNumber + required ≤ head
    · rw [if_pos hc]
      exact ⟨rfl, rfl⟩
    · rw [if_neg hc]
      exact ⟨rfl, rfl⟩
  · exact List.Pairwise.sublist (List.filter_sublist store) h

/-- Witness for C7: a concrete two-row dual-unique store with a duplicate
insert attempt on the second key. -/
theorem indexedStore_dualUnique_invariant_witness :
    DualUnique (persistIndexed
      [newIndexedEvent "Transfer" "0xc" "0xa" 100 0 1 "d" "p",
       newIndexedEvent "Transfer" "0xc" "0xb" 100 1 1 "d" "p"]
      (newIndexedEvent "Transfer" "0xc" "0xz" 100 1 1 "d" "p")).2 :=
  (indexedStore_dualUnique_invariant
    [newIndexedEvent "Transfer" "0xc" "0xa" 100 0 1 "d" "p",
     newIndexedEvent "Transfer" "0xc" "0xb" 100 1 1 "d" "p"]
    (newIndexedEvent "Transfer" "0xc" "0xz" 100 1 1 "d" "p")
    ("0xa", 0, "Transfer") "err" 112 12 100 (by decide)).1

/-- The accumulation loop keeps both weight totals non-negative when every
verification has non-negative stake and reputation weight. -/
theorem foldl_addVerification_nonneg :
    ∀ (vs : List Verification) (acc : ℚ × ℚ),
      (∀ v ∈ vs, 0 ≤ v.stakeAmount ∧ 0 ≤ v.reputationWeight) →
      0 ≤ acc.1 → 0 ≤ acc.2 →
      0 ≤ (List.foldl addVerification acc vs).1 ∧
        0 ≤ (List.foldl addVerification acc vs).2 := by
  intro vs
  induction vs with
  | nil => intro acc _ h1 h2; exact ⟨h1, h2⟩
  | cons v tl ih =>
      intro acc h h1 h2
      have hv := h v (List.mem_cons_self _ _)
      have hw : 0 ≤ computeWeight v := mul_nonneg hv.1 hv.2
      have hrest : ∀ u ∈ tl, 0 ≤ u.stakeAmount ∧ 0 ≤ u.reputationWeight :=
        fun u hu => h u (List.mem_cons_of_mem _ hu)
      rw [List.foldl_cons, addVerification]
      by_cases hbv : v.verdict = .TRUE
      · rw [if_pos hbv]
        exact ih _ hrest (by dsimp only; linarith) (by dsimp only; exact h2)
      · rw [if_neg hbv]
        exact ih _ hrest (by dsimp only; exact h1) (by dsimp only; linarith)

/-- Both totals of `sumWeights` are non-negative for non-negative inputs. -/
theorem sumWeights_nonneg (vs : List Verification)
    (h : ∀ v ∈ vs, 0 ≤ v.stakeAmount ∧ 0 ≤ v.reputationWeight) :
    0 ≤ (sumWeights vs).1 ∧ 0 ≤ (sumWeights vs).2 :=
  foldl_addVerification_nonneg vs (0, 0) h (le_refl 0) (le_refl 0)

/-- On the non-tie branch the winning share exceeds one half, so the rounded
confidence is at least `50`. -/
theorem computeConfidence_ge_fifty (t f : ℚ) (ht : 0 ≤ t) (hf : 0 ≤ f)
    (hne : t ≠ f) (htot : t + f ≠ 0) :
    (50 : ℤ) ≤ computeConfidence (max t f) (t + f) := by
  have hpos : 0 < t + f := lt_of_le_of_ne (add_nonneg ht hf) (Ne.symm htot)
  have hmax : (t + f) / 2 < max t f := by
    rcases lt_or_gt_of_ne hne with hlt | hgt
    · rw [max_eq_right hlt.le]
      linarith
    · rw [max_eq_left hgt.le]
      linarith
  have hsh : (1 : ℚ) / 2 < max t f / (t + f) := by
    rw [lt_div_iff₀ hpos]
    linarith
  rw [computeConfidence, round_eq]
  refine Int.le_floor.mpr ?_
  push_cast
  nlinarith [hsh]

/-- Claim C9: for non-negative stake and reputation weights, `aggregate`
returns `VERIFIED_TRUE` exactly when the accumulated TRUE weight strictly
exceeds the FALSE weight (symmetrically `VERIFIED_FALSE`); ties — including
empty input and zero total weight — give `INCONCLUSIVE` with confidence `0`;
a verified result always carries
`confidence = round(100 * winningWeight / totalWeight)`, which is at least
`10` (indeed at least `50`), so the low-confidence safeguard branch is
unreachable. -/
theorem aggregate_spec (vs : List Verification)
    (h : ∀ v ∈ vs, 0 ≤ v.stakeAmount ∧ 0 ≤ v.reputationWeight) :
    ((aggregate vs).status = .VERIFIED_TRUE ↔
      (sumWeights vs).2 < (sumWeights vs).1) ∧
    ((aggregate vs).status = .VERIFIED_FALSE ↔
      (sumWeights vs).1 < (sumWeights vs).2) ∧
    ((aggregate vs).status = .INCONCLUSIVE ↔
      (sumWeights vs).1 = (sumWeights vs).2) ∧
    ((aggregate vs).status ≠ .INCONCLUSIVE →
      (aggregate vs).confidence =
        computeConfidence (max (sumWeights vs).1 (sumWeights vs).2)
          ((sumWeights vs).1 + (sumWeights vs).2) ∧
      (10 : ℤ) ≤ (aggregate vs).confidence) ∧
    ((aggregate vs).status = .INCONCLUSIVE → (aggregate vs).confidence = 0) := by
  obtain ⟨ht, hf⟩ := sumWeights_nonneg vs h
  by_cases hlen : vs.length = 0
  · have hnil : vs = [] := List.length_eq_zero.mp hlen
    subst hnil
    have hagg : aggregate [] =
        { status := .INCONCLUSIVE, confidence := 0, trueWeight := 0,
          falseWeight := 0, verificationCount := 0 } := rfl
    have hsw : sumWeights ([] : List Verification) = (0, 0) := rfl
    rw [hagg, hsw]
    refine ⟨by simp, by simp, by simp, by simp, by simp⟩
  · by_cases h0 : (sumWeights vs).1 + (sumWeights vs).2 = 0
    · have hteq : (sumWeights vs).1 = (sumWeights vs).2 := by linarith
      have hagg : aggregate vs =
          inconclusiveResult (sumWeights vs).1 (sumWeights vs).2 vs.length := by
        rw [aggregate, if_neg hlen, if_pos h0]
      rw [hagg, inconclusiveResult]
      refine ⟨by simp; linarith, by simp; linarith, by simp [hteq], by simp, by simp⟩
    · by_cases heq : (sumWeights vs).1 = (sumWeights vs).2
      · have hagg : aggregate vs =
            inconclusiveResult (sumWeights vs).1 (sumWeights vs).2 vs.length := by
          rw [aggregate, if_neg hlen, if_neg h0, if_pos heq]
        rw [hagg, inconclusiveResult]
        refine ⟨by simp; linarith, by simp; linarith, by simp [heq], by simp, by simp⟩
      · have hge := computeConfidence_ge_fifty (sumWeights vs).1 (sumWeights vs).2
          ht hf heq h0
        have hsafe : ¬ computeConfidence
            (max (sumWeights vs).1 (sumWeights vs).2)
            ((sumWeights vs).1 + (sumWeights vs).2) < 10 := by omega
        have hagg : aggregate vs =
            { status :=
                if (sumWeights vs).2 < (sumWeights vs).1 then
                  ClaimStatus.VERIFIED_TRUE
                else ClaimStatus.VERIFIED_FALSE
              confidence := computeConfidence
                (max (sumWeights vs).1 (sumWeights vs).2)
                ((sumWeights vs).1 + (sumWeights vs).2)
              trueWeight := (sumWeights vs).1
              falseWeight := (sumWeights vs).2
              verificationCount := vs.length } := by
          rw [aggregate, if_neg hlen, if_neg h0, if_neg heq, if_neg hsafe]
        rw [hagg]
        by_cases hlt : (sumWeights vs).2 < (sumWeights vs).1
        · refine ⟨by simp [hlt], ?_, ?_, fun _ => ⟨rfl, le_trans (by norm_num) hge⟩, by simp [hlt]⟩
          · simp only [if_pos hlt]
            constructor
            · intro hc
              exact absurd hc (by simp)
            · intro hc
              linarith
          · simp only [if_pos hlt]
            constructor
            · intro hc
              exact absurd hc (by simp)
            · intro hc
              exact absurd hc heq
        · have hgt : (sumWeights vs).1 < (sumWeights vs).2 :=
            lt_of_le_of_ne (not_lt.mp hlt) heq
          refine ⟨?_, by simp [hlt, hgt], ?_, fun _ => ⟨rfl, le_trans (by norm_num) hge⟩, by simp [hlt]⟩
          · simp only [if_neg hlt]
            constructor
            · intro hc
              exact absurd hc (by simp)
            · intro hc
              linarith
          · simp only [if_neg hlt]
            constructor
            · intro hc
              exact absurd hc (by simp)
            · intro hc
              exact absurd hc heq

/-- Witness for C9: two verifications, TRUE weight `10` against FALSE weight
`5`, gives a verified-true outcome. -/
theorem aggregate_spec_witness :
    (aggregate [⟨.TRUE, 10, 1⟩, ⟨.FALSE, 5, 1⟩]).status = .VERIFIED_TRUE :=
  (aggregate_spec [⟨.TRUE, 10, 1⟩, ⟨.FALSE, 5, 1⟩]
    (by
      intro v hv
      simp only [List.mem_cons, List.not_mem_nil, or_false] at hv
      rcases hv with rfl | rfl <;> norm_num)).1.mpr
    (by
      simp only [sumWeights, addVerification, computeWeight, List.foldl,
        reduceCtorEq, reduceIte, if_true, if_false]
      norm_num)

end TruthBounty
